import Mathlib

/-!
Shallow embedding of `src/refoldr.py` (ReFoldr, version 1.2.3).

The program is a string-transformation pipeline over album folder names.
Python strings are modelled as `List Char` (wrapped in `String` at the
interface); the regular expressions of the source are embedded as
deterministic scanners that reproduce the backtracking behaviour of the
concrete patterns used (all of them are simple enough to be deterministic
after a case analysis, which is spelled out in comments at each function).

Character classes follow Python `re` on ASCII input:
`\s` is space, tab, newline, carriage return, vertical tab, form feed;
`\w` is letters, digits and underscore; `\d` is the decimal digits.
-/

namespace ReFoldr

/-- ASCII lower-casing, as Python `str.lower` acts on ASCII input. -/
def lc (c : Char) : Char := c.toLower

/-- Python regex class `\s` (ASCII part). -/
def isSp (c : Char) : Bool :=
  c = ' ' || c = '\t' || c = '\n' || c = '\r' || c = '\x0b' || c = '\x0c'

/-- Python regex class `\w` (ASCII part): letters, digits, underscore. -/
def isWord (c : Char) : Bool := c.isAlphanum || c = '_'

/-- The apostrophe character (written by code point to keep sources clean). -/
def apos : Char := Char.ofNat 39

/-- Drop characters satisfying `p` from the end of the list
(Python `str.rstrip` / the regex `[...]+$`). -/
def rstripP (p : Char → Bool) (l : List Char) : List Char :=
  (l.reverse.dropWhile p).reverse

/-- Drop characters satisfying `p` from both ends (Python `str.strip`). -/
def stripP (p : Char → Bool) (l : List Char) : List Char :=
  rstripP p (l.dropWhile p)

/-- `re.sub(r"\s+", " ", name)`: each maximal run of whitespace becomes a
single space.  The flag records whether the previous character was part of
a whitespace run. -/
def collapseWsAux : Bool → List Char → List Char
  | _, [] => []
  | prev, c :: rest =>
    if isSp c then
      if prev then collapseWsAux true rest else ' ' :: collapseWsAux true rest
    else c :: collapseWsAux false rest

def collapseWs (l : List Char) : List Char := collapseWsAux false l

/-- The keyword alternative `(?:cd|disc)` of the disc-tagging regex,
case-insensitively; returns the remainder after the keyword.  The two
alternatives begin with different letters, so at most one can apply. -/
def stripKW (l : List Char) : Option (List Char) :=
  match l with
  | c1 :: c2 :: rest =>
    if lc c1 = 'c' && lc c2 = 'd' then some rest
    else
      match rest with
      | c3 :: c4 :: rest2 =>
        if lc c1 = 'd' && lc c2 = 'i' && lc c3 = 's' && lc c4 = 'c' then some rest2
        else none
      | _ => none
  | _ => none

/--
One attempted match of `(?:cd|disc)(\d+)(?!\))` at the head of `l`
(the lookbehinds `(?<!\()(?<!\w)` are checked by the caller).
Returns `(digits captured, remainder of the string)` on success.

`(\d+)` is greedy: it first takes the maximal digit run; if the next
character is `)` the engine gives back exactly one digit (after which the
lookahead sees a digit, which is not `)`, so it succeeds), and if only one
digit was available the whole attempt fails.
-/
def discMatch (l : List Char) : Option (List Char × List Char) :=
  match stripKW l with
  | none => none
  | some r =>
    let ds := r.takeWhile Char.isDigit
    let rest := r.dropWhile Char.isDigit
    if ds.isEmpty then none
    else
      match rest with
      | ')' :: _ =>
        match ds.reverse with
        | lastD :: o1 :: os => some ((o1 :: os).reverse, lastD :: rest)
        | _ => none
      | _ => some (ds, rest)

/--
`re.sub(r"(?<!\()(?<!\w)((?:cd|disc)(\d+))(?!\))", "(Disc N)", name, re.IGNORECASE)`:
left-to-right scan over the original string; the two boolean flags record
whether the character before the current position is `(` resp. a word
character (they are `false` at the start of the string, where both
lookbehinds hold).  After a replacement the scan resumes after the matched
digits, whose last character is a digit, hence a word character.

`fuel` only serves to make the recursion structural; the wrappers pass
`l.length + 1`, and every step consumes at least one character, so the
fuel-exhaustion branch is never reached from the wrapper.
-/
def discRewriteAux : Nat → Bool → Bool → List Char → List Char
  | 0, _, _, l => l
  | _ + 1, _, _, [] => []
  | fuel + 1, prevParen, prevWord, c :: rest =>
    if !prevParen && !prevWord then
      match discMatch (c :: rest) with
      | some (ds, rest2) =>
        ['(', 'D', 'i', 's', 'c', ' '] ++ ds ++ ')' :: discRewriteAux fuel false true rest2
      | none => c :: discRewriteAux fuel (c = '(') (isWord c) rest
    else c :: discRewriteAux fuel (c = '(') (isWord c) rest

def discRewrite (l : List Char) : List Char :=
  discRewriteAux (l.length + 1) false false l

/-- `sanitize` of `src/refoldr.py` (lines 135-145), stage by stage:
remove `@` and `~`, remove both curly braces (written by code point),
normalize en dash / em dash / minus sign to the ASCII hyphen, collapse
whitespace runs and trim, strip a trailing run of hyphens and whitespace,
then apply the disc-tagging rewrite. -/
def sanitizeL (l : List Char) : List Char :=
  let s1 := l.filter (fun c => c != '@')
  let s2 := s1.filter (fun c => c != '~')
  let s3 := s2.filter (fun c => c != Char.ofNat 123)
  let s4 := s3.filter (fun c => c != Char.ofNat 125)
  let s5 := s4.map (fun c => if c = '–' || c = '—' || c = '−' then '-' else c)
  let s6 := stripP isSp (collapseWs s5)
  let s7 := rstripP (fun c => c = '-' || isSp c) s6
  discRewrite s7

def sanitize (s : String) : String := ⟨sanitizeL s.data⟩

/-- Case-insensitive literal match of `pat` against the front of `l`
(the band name is passed through `re.escape`, so it is matched literally;
`re.IGNORECASE` compares characters up to ASCII case).  Returns the
remainder of `l` after the matched characters. -/
def matchCI : List Char → List Char → Option (List Char)
  | [], l => some l
  | _ :: _, [] => none
  | p :: ps, c :: cs => if lc p = lc c then matchCI ps cs else none

def isWordO : Option Char → Bool
  | none => false
  | some c => isWord c

/-- Python `\b` between a previous character (`none` at the string edge)
and a next character: exactly one side is a word character. -/
def boundaryB (prev next : Option Char) : Bool := isWordO prev != isWordO next

/--
The full match of `re.compile(rf"^\x7bre.escape(band_name)\x7d(['\s]?s)?\b", re.IGNORECASE)`
against `title`: the band name matched literally at the start, then the
greedy optional group `(['\s]?s)?` tried at widths 2 (class character and
`s`), 1 (just `s`), 0 (absent) in that order, each followed by the word
boundary test; the first width whose boundary test succeeds wins.
Returns the part of the title after the whole match, or `none`.
-/
def bandRemoved (title band : List Char) : Option (List Char) :=
  match matchCI band title with
  | none => none
  | some rest =>
    let p0 : Option Char := (title.take band.length).getLast?
    match rest with
    | c1 :: c2 :: rest2 =>
      if (c1 = apos || isSp c1) && lc c2 = 's' && boundaryB (some c2) rest2.head? then
        some rest2
      else if lc c1 = 's' && boundaryB (some c1) (some c2) then some (c2 :: rest2)
      else if boundaryB p0 (some c1) then some (c1 :: c2 :: rest2)
      else none
    | [c1] =>
      if lc c1 = 's' && boundaryB (some c1) none then some []
      else if boundaryB p0 (some c1) then some [c1]
      else none
    | [] => if boundaryB p0 none then some [] else none

/-- `remove_band_name` of `src/refoldr.py` (lines 147-154):
`pattern.sub("", album_title).lstrip(" -")` — the pattern is anchored at
the start, so at most one substitution happens; the left strip of spaces
and hyphens is applied in either case. -/
def remove_band_nameL (title band : List Char) : List Char :=
  let t := match bandRemoved title band with
    | some rest => rest
    | none => title
  t.dropWhile (fun c => c = ' ' || c = '-')

def remove_band_name (album_title band_name : String) : String :=
  ⟨remove_band_nameL album_title.data band_name.data⟩

/-- One attempted match of `\b(\d{4})\b` at the current position:
`prevW` tells whether the character before the position is a word
character (`false` at the start of the string).  A digit is a word
character, so the left boundary holds exactly when `prevW` is false and
the right boundary exactly when the following character is absent or not
a word character. -/
def findYearAux : Bool → List Char → Option (Char × Char × Char × Char)
  | _, [] => none
  | prevW, c :: rest =>
    (if !prevW then
      match c :: rest with
      | a :: b :: c' :: d :: rest2 =>
        if a.isDigit && b.isDigit && c'.isDigit && d.isDigit &&
            (match rest2 with | [] => true | e :: _ => !isWord e) then
          some (a, b, c', d)
        else none
      | _ => none
    else none).orElse (fun _ => findYearAux (isWord c) rest)

/-- `re.search(r"\b(\d{4})\b", title)`: the leftmost standalone 4-digit
group, if any. -/
def findYear (l : List Char) : Option (Char × Char × Char × Char) :=
  findYearAux false l

/-- Python `title.replace(year, "")` for the 4-character string
`[y1, y2, y3, y4]`: remove every (left-to-right, non-overlapping)
occurrence of those four characters. -/
def removeAll4 (y1 y2 y3 y4 : Char) : List Char → List Char
  | a :: b :: c :: d :: rest =>
    if a = y1 && b = y2 && c = y3 && d = y4 then removeAll4 y1 y2 y3 y4 rest
    else a :: removeAll4 y1 y2 y3 y4 (b :: c :: d :: rest)
  | l => l

/-- `re.sub(r"\(\s*\)", "", title)`: left-to-right removal of `(`,
optional whitespace, `)`.  `\s*` is greedy and whitespace never equals
`)`, so after an opening parenthesis the match succeeds exactly when the
first non-whitespace character is `)`.  The scan does not revisit text
before the current position (so nested leftovers are not re-scanned, as
in a single `re.sub` pass).  `fuel` makes the recursion structural; the
wrapper passes `l.length + 1` and each step consumes at least one
character, so the fuel-exhaustion branch is never reached. -/
def removeEmptyParensAux : Nat → List Char → List Char
  | 0, l => l
  | _ + 1, [] => []
  | fuel + 1, c :: rest =>
    if c = '(' then
      match rest.dropWhile isSp with
      | ')' :: rest2 => removeEmptyParensAux fuel rest2
      | _ => c :: removeEmptyParensAux fuel rest
    else c :: removeEmptyParensAux fuel rest

def removeEmptyParens (l : List Char) : List Char :=
  removeEmptyParensAux (l.length + 1) l

/-- `move_year_in_front` of `src/refoldr.py` (lines 156-163). -/
def move_year_in_frontL (t : List Char) : List Char :=
  match findYear t with
  | none => t
  | some (y1, y2, y3, y4) =>
    let t1 := removeAll4 y1 y2 y3 y4 t
    let t2 := stripP (fun c => c = ' ' || c = '-') t1
    let t3 := removeEmptyParens t2
    let t4 := stripP isSp t3
    if t4.isEmpty then [y1, y2, y3, y4]
    else [y1, y2, y3, y4] ++ ' ' :: '-' :: ' ' :: t4

def move_year_in_front (album_title : String) : String :=
  ⟨move_year_in_frontL album_title.data⟩

/-- `name.split(" - ", 1)` succeeding: the text before the first
occurrence of `sep` and the text after it. -/
def splitOnFirstL (l : List Char) (sep : List Char) : Option (List Char × List Char) :=
  match l with
  | [] => none
  | c :: rest =>
    if (c :: rest).take sep.length = sep then some ([], (c :: rest).drop sep.length)
    else
      match splitOnFirstL rest sep with
      | some (a, b) => some (c :: a, b)
      | none => none

/-- Python `sub in s` (substring containment) for a non-empty `sub`. -/
def hasSubL (l sub : List Char) : Bool := (splitOnFirstL l sub).isSome

def hasSub (s sub : String) : Bool := hasSubL s.data sub.data

def lowerL (l : List Char) : List Char := l.map lc

/-- The fixed skip list `EDGE_CASES` of `src/refoldr.py` (lines 36-41). -/
def EDGE_CASES : List String :=
  ["In Time_ The Best Of R.E.M.",
   "1992–2012 - The Anthology",
   "The Best Of 1980 1990 & B Sides",
   "The Best Of 1990-2000"]

/-- One attempted match of `\d{4}\s*[-–]\s*\d{4}\b` at the current
position (the leading `\b` is checked by the caller).  `\s*` is greedy
and whitespace is never a dash or a digit, so the scan is deterministic:
exactly four digits, optional whitespace, one dash (ASCII hyphen or en
dash), optional whitespace, exactly four digits, then a right boundary
(end of string or a non-word character). -/
def multiYearAt : List Char → Bool
  | a :: b :: c :: d :: rest =>
    a.isDigit && b.isDigit && c.isDigit && d.isDigit &&
    (match rest.dropWhile isSp with
     | dash :: r2 =>
       (dash = '-' || dash = '–') &&
       (match r2.dropWhile isSp with
        | e :: f :: g :: h :: r4 =>
          e.isDigit && f.isDigit && g.isDigit && h.isDigit &&
          (match r4 with | [] => true | x :: _ => !isWord x)
        | _ => false)
     | [] => false)
  | _ => false

/-- `re.search(r"\b\d{4}\s*[-–]\s*\d{4}\b", base)` viewed as existence of
a match; `prevW` records whether the previous character is a word
character (the first matched character is a digit, so the leading `\b`
holds exactly when it is not). -/
def multiYearL : Bool → List Char → Bool
  | _, [] => false
  | prevW, c :: rest => (!prevW && multiYearAt (c :: rest)) || multiYearL (isWord c) rest

def multiYear (l : List Char) : Bool := multiYearL false l

/-- `is_edge_case` of `src/refoldr.py` (lines 165-176); `opts` models the
global `EDGE_OPTIONS` set built from `-e`. -/
def is_edge_caseL (opts : List String) (pathStr : List Char) : Bool :=
  let base := lowerL pathStr
  (hasSubL base "remaster".data && !(opts.contains "remaster")) ||
  (hasSubL base "delux".data && !(opts.contains "delux")) ||
  (multiYear base && !(opts.contains "multiyears")) ||
  (EDGE_CASES.any (fun p => hasSubL base (lowerL p.data)))

def is_edge_case (opts : List String) (path : String) : Bool :=
  is_edge_caseL opts path.data

/-- `re.match(r"^\d{4} - ", album_title)` succeeding. -/
def startsWithYearDashL : List Char → Bool
  | a :: b :: c :: d :: ' ' :: '-' :: ' ' :: _ =>
    a.isDigit && b.isDigit && c.isDigit && d.isDigit
  | _ => false

def startsWithYearDash (s : String) : Bool := startsWithYearDashL s.data

/-- A filesystem mutation performed by the script: `Path.mkdir`
(with `exist_ok=True`, i.e. create if absent) or `Path.rename`. -/
inductive FsOp
  | mkdirOp : String → FsOp
  | renameOp : String → String → FsOp
deriving DecidableEq, Repr

/-- Observable outcome of one `rename_album_folder` call: the filesystem
mutations, the lines appended to `renamed.log` and `skipped.log`, whether
`get_year_from_discogs` was invoked, and the title the folder would be
renamed to. -/
structure RenameOut where
  effects : List FsOp
  renamed : List String
  skipped : List String
  lookupInvoked : Bool
  finalTitle : String
deriving DecidableEq, Repr

/--
`rename_album_folder` of `src/refoldr.py` (lines 178-220).

Paths are modelled as strings: `path = parentPath ++ "/" ++ name`,
`path.name = name`, `path.parent = parentPath`, and `band` stands for
`parent.name`; `relPath` is the printed `path.relative_to(Path.cwd())`.
The Discogs call `get_year_from_discogs` is an external HTTP lookup
(out of scope per the spec) and is modelled by `oracle`, its returned
`Option` year; `lookupInvoked` records whether the call happens.
Path equality `new_path == path` is modelled as string equality of the
joined paths.
-/
def rename_album_folder (opts : List String) (dryRun : Bool)
    (parentPath name band relPath : String) (oracle : Option String) : RenameOut :=
  let fullPath := parentPath ++ "/" ++ name
  let t1 := sanitize (remove_band_name name band)
  let edge := is_edge_case opts fullPath
  let skipMsgs := if edge then ["[SKIP] Edge case: " ++ relPath] else []
  let step : String × Bool :=
    if edge then (t1, false)
    else
      let tm := move_year_in_front t1
      if startsWithYearDash tm then (tm, false)
      else
        match oracle with
        | some y => (y ++ " - " ++ tm, true)
        | none => (tm, true)
  let t2 := step.1
  let inv := step.2
  if t2 = "" then
    { effects := [], renamed := [],
      skipped := skipMsgs ++ ["[UNCHANGED] Empty title after sanitization: " ++ relPath],
      lookupInvoked := inv, finalTitle := t2 }
  else
    let newPath := parentPath ++ "/" ++ t2
    if newPath = fullPath then
      { effects := [], renamed := [], skipped := skipMsgs,
        lookupInvoked := inv, finalTitle := t2 }
    else
      let msg0 := "[RENAME]: " ++ relPath ++ " -> " ++ newPath
      { effects := if dryRun then [] else [FsOp.renameOp fullPath newPath],
        renamed := [if dryRun then "[DRY-RUN] " ++ msg0 else msg0],
        skipped := skipMsgs, lookupInvoked := inv, finalTitle := t2 }

/-- Observable outcome of one `deflat_dir` call: filesystem mutations and
the line appended to `deflat.log`. -/
structure DeflatOut where
  effects : List FsOp
  logMsg : String
deriving DecidableEq, Repr

/--
`deflat_dir` of `src/refoldr.py` (lines 233-254).

The candidate folder is `parentPath ++ "/" ++ name` (a direct child of the
root, so `path.parent = parentPath`).  `parts = path.name.split(" - ", 1)`;
with no separator the failure message (which prints the path as given) is
logged and nothing else happens; otherwise both halves are stripped of
whitespace, the artist folder is created with `exist_ok=True` and the
folder is renamed into it.  `path.resolve()` is modelled as the path
string itself (the model takes the paths to be already absolute).
-/
def deflat_dir (dryRun : Bool) (parentPath name : String) : DeflatOut :=
  match splitOnFirstL name.data " - ".data with
  | none =>
    { effects := [],
      logMsg := "[DEFLAT][FAIL] Not found artist album " ++ parentPath ++ "/" ++ name ++ "/" }
  | some (a, b) =>
    let artistName : String := ⟨stripP isSp a⟩
    let albumName : String := ⟨stripP isSp b⟩
    let artistFolder := parentPath ++ "/" ++ artistName
    let albumFolder := artistFolder ++ "/" ++ albumName
    let pathStr := parentPath ++ "/" ++ name
    if !dryRun then
      { effects := [FsOp.mkdirOp artistFolder, FsOp.renameOp pathStr albumFolder],
        logMsg := "[DEFLAT] " ++ pathStr ++ " -> " ++ albumFolder ++ "/" }
    else
      { effects := [],
        logMsg := "[DRY-RUN][DEFLAT] " ++ pathStr ++ " -> " ++ albumFolder }

/-- The characters sanitize is specified to eliminate: the removed
`@`, `~` and both curly braces, and the dash variants that are rewritten
to the ASCII hyphen. -/
def bannedChar (c : Char) : Bool :=
  c = '@' || c = '~' || c = Char.ofNat 123 || c = Char.ofNat 125 ||
  c = '–' || c = '—' || c = '−'

/-- The list does not begin with whitespace. -/
def noLeadWs (l : List Char) : Bool :=
  match l.head? with
  | none => true
  | some c => !isSp c

/-- The list does not end with whitespace or a hyphen. -/
def noTrailSep (l : List Char) : Bool :=
  match l.getLast? with
  | none => true
  | some c => !(c = '-' || isSp c)

/-! ### Helper lemmas -/

theorem strExt {a b : String} (h : a.data = b.data) : a = b := by
  cases a; cases b; exact congrArg String.mk h

theorem strAppend_data (a b : String) : (a ++ b).data = a.data ++ b.data := by
  cases a; cases b; rfl

theorem head?_dropWhile_false {p : Char → Bool} :
    ∀ {l : List Char} {c : Char}, (l.dropWhile p).head? = some c → p c = false := by
  intro l
  induction l with
  | nil => intro c h; simp [List.dropWhile] at h
  | cons a as ih =>
    intro c h
    rw [List.dropWhile_cons] at h
    split at h
    · exact ih h
    · simp only [List.head?_cons, Option.some.injEq] at h
      subst h; simp_all

theorem rstripP_append (p : Char → Bool) (l : List Char) :
    l = rstripP p l ++ (l.reverse.takeWhile p).reverse := by
  conv_lhs => rw [← l.reverse_reverse, ← List.takeWhile_append_dropWhile (p := p) (l := l.reverse)]
  rw [List.reverse_append]; rfl

theorem rstripP_getLast? {p : Char → Bool} {l : List Char} {c : Char}
    (h : (rstripP p l).getLast? = some c) : p c = false := by
  rw [rstripP, List.getLast?_reverse] at h
  exact head?_dropWhile_false h

theorem rstripP_head? {p : Char → Bool} {l : List Char} (h : rstripP p l ≠ []) :
    (rstripP p l).head? = l.head? := by
  conv_rhs => rw [rstripP_append p l]
  cases hr : rstripP p l with
  | nil => exact absurd hr h
  | cons a t => simp [hr]

theorem stripP_head? {p : Char → Bool} {l : List Char} {c : Char}
    (h : (stripP p l).head? = some c) : p c = false := by
  rw [stripP] at h
  have hne : rstripP p (l.dropWhile p) ≠ [] := by
    intro he; rw [he] at h; simp at h
  rw [rstripP_head? hne] at h
  exact head?_dropWhile_false h

theorem stripP_getLast? {p : Char → Bool} {l : List Char} {c : Char}
    (h : (stripP p l).getLast? = some c) : p c = false :=
  rstripP_getLast? h

theorem mem_rstripP {p : Char → Bool} {l : List Char} {c : Char} (h : c ∈ rstripP p l) :
    c ∈ l := by
  rw [rstripP, List.mem_reverse] at h
  exact List.mem_reverse.mp ((List.dropWhile_sublist p).mem h)

theorem mem_stripP {p : Char → Bool} {l : List Char} {c : Char} (h : c ∈ stripP p l) :
    c ∈ l := by
  rw [stripP] at h
  exact (List.dropWhile_sublist p).mem (mem_rstripP h)

theorem mem_collapseWsAux :
    ∀ (b : Bool) (l : List Char) (c : Char), c ∈ collapseWsAux b l → c = ' ' ∨ c ∈ l := by
  intro b l
  induction l generalizing b with
  | nil => intro c h; simp [collapseWsAux] at h
  | cons a as ih =>
    intro c h
    rw [collapseWsAux] at h
    split at h
    · split at h
      · rcases ih _ _ h with h' | h'
        · exact Or.inl h'
        · exact Or.inr (List.mem_cons_of_mem a h')
      · rcases List.mem_cons.mp h with h' | h'
        · exact Or.inl h'
        · rcases ih _ _ h' with h'' | h''
          · exact Or.inl h''
          · exact Or.inr (List.mem_cons_of_mem a h'')
    · rcases List.mem_cons.mp h with h' | h'
      · exact Or.inr (h' ▸ List.mem_cons_self a as)
      · rcases ih _ _ h' with h'' | h''
        · exact Or.inl h''
        · exact Or.inr (List.mem_cons_of_mem a h'')

theorem stripKW_suffix {l r : List Char} (h : stripKW l = some r) : ∃ p, l = p ++ r := by
  rcases l with _ | ⟨c1, _ | ⟨c2, _ | ⟨c3, _ | ⟨c4, rest2⟩⟩⟩⟩
  · simp [stripKW] at h
  · simp [stripKW] at h
  · rw [show stripKW [c1, c2] =
        (if lc c1 = 'c' && lc c2 = 'd' then some [] else none) from rfl] at h
    split at h
    · obtain rfl : ([] : List Char) = r := by injection h
      exact ⟨[c1, c2], by simp⟩
    · exact absurd h (by simp)
  · rw [show stripKW [c1, c2, c3] =
        (if lc c1 = 'c' && lc c2 = 'd' then some [c3] else none) from rfl] at h
    split at h
    · obtain rfl : [c3] = r := by injection h
      exact ⟨[c1, c2], rfl⟩
    · exact absurd h (by simp)
  · rw [show stripKW (c1 :: c2 :: c3 :: c4 :: rest2) =
        (if lc c1 = 'c' && lc c2 = 'd' then some (c3 :: c4 :: rest2)
         else if lc c1 = 'd' && lc c2 = 'i' && lc c3 = 's' && lc c4 = 'c' then some rest2
         else none) from rfl] at h
    split at h
    · obtain rfl : c3 :: c4 :: rest2 = r := by injection h
      exact ⟨[c1, c2], rfl⟩
    · split at h
      · obtain rfl : rest2 = r := by injection h
        exact ⟨[c1, c2, c3, c4], rfl⟩
      · exact absurd h (by simp)

theorem discMatch_parts {l ds rest2 : List Char} (h : discMatch l = some (ds, rest2)) :
    (∃ p, l = p ++ rest2) ∧ ∀ c ∈ ds, c.isDigit := by
  rw [discMatch] at h
  cases hkw : stripKW l with
  | none => rw [hkw] at h; exact absurd h (by simp)
  | some r =>
    rw [hkw] at h
    obtain ⟨p, hp⟩ := stripKW_suffix hkw
    simp only at h
    split at h
    · exact absurd h (by simp)
    · split at h
      · split at h
        · rename_i lastD o1 os hrev
          rw [Option.some.injEq, Prod.mk.injEq] at h
          obtain ⟨rfl, rfl⟩ := h
          have htk : r.takeWhile Char.isDigit = (o1 :: os).reverse ++ [lastD] := by
            calc r.takeWhile Char.isDigit
                = (r.takeWhile Char.isDigit).reverse.reverse := (List.reverse_reverse _).symm
              _ = (lastD :: o1 :: os).reverse := by rw [hrev]
              _ = (o1 :: os).reverse ++ [lastD] := by simp
          constructor
          · refine ⟨p ++ (o1 :: os).reverse, ?_⟩
            conv_lhs =>
              rw [hp]
              rw [← List.takeWhile_append_dropWhile (p := Char.isDigit) (l := r)]
              rw [htk]
            simp
          · intro c hc
            have hc' : c ∈ r.takeWhile Char.isDigit := by
              have h1 : c ∈ (r.takeWhile Char.isDigit).reverse := by
                rw [hrev]
                exact List.mem_cons_of_mem _ (List.mem_reverse.mp hc)
              exact List.mem_reverse.mp h1
            exact List.mem_takeWhile_imp hc'
        · exact absurd h (by simp)
      · rw [Option.some.injEq, Prod.mk.injEq] at h
        obtain ⟨rfl, rfl⟩ := h
        constructor
        · refine ⟨p ++ r.takeWhile Char.isDigit, ?_⟩
          conv_lhs =>
            rw [hp]
            rw [← List.takeWhile_append_dropWhile (p := Char.isDigit) (l := r)]
          simp
        · intro c hc
          exact List.mem_takeWhile_imp hc

theorem discRewriteAux_nil (fuel : Nat) (pp pw : Bool) : discRewriteAux fuel pp pw [] = [] := by
  cases fuel <;> rfl

theorem discRewriteAux_ne_nil :
    ∀ (fuel : Nat) (pp pw : Bool) (l : List Char), l ≠ [] → discRewriteAux fuel pp pw l ≠ [] := by
  intro fuel pp pw l hl
  match fuel, l with
  | 0, l => simpa [discRewriteAux] using hl
  | f + 1, [] => exact absurd rfl hl
  | f + 1, c :: rest =>
    rw [discRewriteAux]
    split
    · cases hm : discMatch (c :: rest) with
      | some pr => cases pr with | mk ds r2 => simp
      | none => simp
    · simp

theorem discRewriteAux_head? (fuel : Nat) (pp pw : Bool) (c : Char) (rest : List Char) :
    (discRewriteAux fuel pp pw (c :: rest)).head? = some c ∨
    (discRewriteAux fuel pp pw (c :: rest)).head? = some '(' := by
  match fuel with
  | 0 => left; rfl
  | f + 1 =>
    rw [discRewriteAux]
    split
    · cases hm : discMatch (c :: rest) with
      | some pr => cases pr with | mk ds r2 => right; rfl
      | none => left; rfl
    · left; rfl

theorem getLast?_cons_ne_nil {c : Char} {l : List Char} (h : l ≠ []) :
    (c :: l).getLast? = l.getLast? := by
  cases l with
  | nil => exact absurd rfl h
  | cons a t => exact List.getLast?_cons_cons

theorem discRewriteAux_getLast? :
    ∀ (fuel : Nat) (pp pw : Bool) (l : List Char), l ≠ [] →
      (discRewriteAux fuel pp pw l).getLast? = l.getLast? ∨
      (discRewriteAux fuel pp pw l).getLast? = some ')' := by
  intro fuel
  induction fuel with
  | zero => intro pp pw l _; left; rfl
  | succ f ih =>
    intro pp pw l hl
    match l with
    | [] => exact absurd rfl hl
    | c :: rest =>
      rw [discRewriteAux]
      have hcons : ∀ (pp' pw' : Bool),
          (c :: discRewriteAux f pp' pw' rest).getLast? = (c :: rest).getLast? ∨
          (c :: discRewriteAux f pp' pw' rest).getLast? = some ')' := by
        intro pp' pw'
        cases hr : rest with
        | nil => left; rw [discRewriteAux_nil]
        | cons a t =>
          have hne : rest ≠ [] := by rw [hr]; simp
          have hne2 : discRewriteAux f pp' pw' rest ≠ [] := discRewriteAux_ne_nil f pp' pw' rest hne
          rw [← hr, getLast?_cons_ne_nil hne2, getLast?_cons_ne_nil hne]
          exact ih pp' pw' rest hne
      split
      · cases hm : discMatch (c :: rest) with
        | some pr =>
          cases pr with
          | mk ds r2 =>
            dsimp only
            obtain ⟨⟨p, hp⟩, _⟩ := discMatch_parts hm
            by_cases hr2 : r2 = []
            · subst hr2
              right
              rw [discRewriteAux_nil]
              rw [show ['(', 'D', 'i', 's', 'c', ' '] ++ ds ++ ')' :: ([] : List Char) =
                    (['(', 'D', 'i', 's', 'c', ' '] ++ ds) ++ [')'] by simp]
              exact List.getLast?_concat _
            · have hne2 : discRewriteAux f false true r2 ≠ [] :=
                discRewriteAux_ne_nil f false true r2 hr2
              rw [show ['(', 'D', 'i', 's', 'c', ' '] ++ ds ++ ')' :: discRewriteAux f false true r2 =
                    (['(', 'D', 'i', 's', 'c', ' '] ++ ds ++ [')']) ++ discRewriteAux f false true r2
                  by simp]
              rw [List.getLast?_append_of_ne_nil _ hne2]
              rcases ih false true r2 hr2 with h1 | h1
              · rw [h1, hp, List.getLast?_append_of_ne_nil _ hr2]
                left; rfl
              · right; exact h1
        | none => exact hcons _ _
      · exact hcons _ _

theorem mem_discRewriteAux :
    ∀ (fuel : Nat) (pp pw : Bool) (l : List Char) (c : Char),
      c ∈ discRewriteAux fuel pp pw l →
      c ∈ l ∨ c ∈ ['(', 'D', 'i', 's', 'c', ' ', ')'] ∨ c.isDigit := by
  intro fuel
  induction fuel with
  | zero => intro pp pw l c h; exact Or.inl h
  | succ f ih =>
    intro pp pw l c h
    match l with
    | [] => rw [discRewriteAux] at h; simp at h
    | a :: rest =>
      rw [discRewriteAux] at h
      have hcons : ∀ (pp' pw' : Bool), c ∈ a :: discRewriteAux f pp' pw' rest →
          c ∈ a :: rest ∨ c ∈ ['(', 'D', 'i', 's', 'c', ' ', ')'] ∨ c.isDigit := by
        intro pp' pw' hc
        rcases List.mem_cons.mp hc with h1 | h1
        · exact Or.inl (h1 ▸ List.mem_cons_self a rest)
        · rcases ih pp' pw' rest c h1 with h2 | h2
          · exact Or.inl (List.mem_cons_of_mem a h2)
          · exact Or.inr h2
      split at h
      · cases hm : discMatch (a :: rest) with
        | some pr =>
          cases pr with
          | mk ds r2 =>
            rw [hm] at h
            obtain ⟨⟨p, hp⟩, hds⟩ := discMatch_parts hm
            simp only [List.append_assoc, List.mem_append, List.mem_cons] at h
            rcases h with h1 | h1 | rfl | h1
            · right; left
              simp only [List.mem_cons, List.not_mem_nil, or_false] at h1 ⊢
              tauto
            · right; right; exact hds c h1
            · right; left; simp
            · rcases ih false true r2 c h1 with h2 | h2
              · left; rw [hp]; exact List.mem_append_right p h2
              · exact Or.inr h2
        | none => rw [hm] at h; exact hcons _ _ h
      · exact hcons _ _ h

theorem strAppend_assoc (a b c : String) : a ++ b ++ c = a ++ (b ++ c) :=
  strExt (by simp [strAppend_data, List.append_assoc])

theorem splitOnFirstL_eq :
    ∀ {l sep a b : List Char}, splitOnFirstL l sep = some (a, b) → l = a ++ sep ++ b := by
  intro l
  induction l with
  | nil => intro sep a b h; simp [splitOnFirstL] at h
  | cons c rest ih =>
    intro sep a b h
    rw [splitOnFirstL] at h
    split at h
    · rename_i htake
      rw [Option.some.injEq, Prod.mk.injEq] at h
      obtain ⟨rfl, rfl⟩ := h
      conv_lhs => rw [← List.take_append_drop sep.length (c :: rest)]
      rw [htake]
      rfl
    · cases hrec : splitOnFirstL rest sep with
      | none => rw [hrec] at h; exact absurd h (by simp)
      | some pr =>
        cases pr with
        | mk a0 b0 =>
          rw [hrec] at h
          rw [Option.some.injEq, Prod.mk.injEq] at h
          obtain ⟨rfl, rfl⟩ := h
          have := ih hrec
          simp only [List.cons_append]
          rw [← this]

theorem splitOnFirstL_min :
    ∀ {l sep a b : List Char}, splitOnFirstL l sep = some (a, b) →
      ∀ a' b', l = a' ++ sep ++ b' → a.length ≤ a'.length := by
  intro l
  induction l with
  | nil => intro sep a b h; simp [splitOnFirstL] at h
  | cons c rest ih =>
    intro sep a b h a' b' hsplit
    rw [splitOnFirstL] at h
    split at h
    · rename_i htake
      rw [Option.some.injEq, Prod.mk.injEq] at h
      obtain ⟨rfl, rfl⟩ := h
      simp
    · rename_i htake
      cases hrec : splitOnFirstL rest sep with
      | none => rw [hrec] at h; exact absurd h (by simp)
      | some pr =>
        cases pr with
        | mk a0 b0 =>
          rw [hrec] at h
          rw [Option.some.injEq, Prod.mk.injEq] at h
          obtain ⟨rfl, rfl⟩ := h
          cases a' with
          | nil =>
            exfalso
            apply htake
            rw [List.nil_append] at hsplit
            rw [hsplit, List.take_left]
          | cons c' a'0 =>
            have hc : rest = a'0 ++ sep ++ b' := by
              rw [List.cons_append, List.cons_append] at hsplit
              injection hsplit
            simpa using Nat.succ_le_succ (ih hrec a'0 b' hc)

theorem splitOnFirstL_isSome {sep : List Char} (hsep : sep ≠ []) :
    ∀ (a' : List Char) {l b' : List Char}, l = a' ++ sep ++ b' →
      (splitOnFirstL l sep).isSome := by
  intro a'
  induction a' with
  | nil =>
    intro l b' hl
    rw [List.nil_append] at hl
    cases hs : sep with
    | nil => exact absurd hs hsep
    | cons s ss =>
      subst hl
      rw [hs, List.cons_append, splitOnFirstL]
      rw [if_pos (by rw [← hs, ← List.cons_append, ← hs, List.take_left])]
      simp
  | cons c a'0 ih =>
    intro l b' hl
    subst hl
    rw [List.cons_append, List.cons_append, splitOnFirstL]
    split
    · simp
    · cases hrec : splitOnFirstL (a'0 ++ sep ++ b') sep with
      | none =>
        have := ih (l := a'0 ++ sep ++ b') rfl
        rw [hrec] at this
        simp at this
      | some pr => simp

theorem matchCI_take :
    ∀ (pat l rest : List Char), matchCI pat l = some rest →
      (l.take pat.length).map lc = pat.map lc ∧ l = l.take pat.length ++ rest := by
  intro pat
  induction pat with
  | nil =>
    intro l rest h
    obtain rfl : l = rest := by injection h
    simp [List.take]
  | cons p ps ih =>
    intro l rest h
    cases l with
    | nil => simp [matchCI] at h
    | cons c cs =>
      rw [matchCI] at h
      split at h
      · rename_i hpc
        obtain ⟨h1, h2⟩ := ih cs rest h
        constructor
        · simp only [List.length_cons, List.take_succ_cons, List.map_cons]
          rw [h1, hpc]
        · simp only [List.length_cons, List.take_succ_cons, List.cons_append]
          rw [← h2]
      · exact absurd h (by simp)

theorem noLeadWs_of {l : List Char} {c : Char} (h1 : l.head? = some c)
    (h2 : isSp c = false) : noLeadWs l = true := by
  simp [noLeadWs, h1, h2]

theorem noTrailSep_of {l : List Char} {c : Char} (h1 : l.getLast? = some c)
    (h2 : (c = '-' || isSp c) = false) : noTrailSep l = true := by
  simp only [noTrailSep, h1]
  rw [h2]
  rfl

theorem digit_not_banned {c : Char} (h : c.isDigit = true) : bannedChar c = false := by
  have h1 : c ≠ '@' := by rintro rfl; exact absurd h (by decide)
  have h2 : c ≠ '~' := by rintro rfl; exact absurd h (by decide)
  have h3 : c ≠ Char.ofNat 123 := by rintro rfl; exact absurd h (by decide)
  have h4 : c ≠ Char.ofNat 125 := by rintro rfl; exact absurd h (by decide)
  have h5 : c ≠ '–' := by rintro rfl; exact absurd h (by decide)
  have h6 : c ≠ '—' := by rintro rfl; exact absurd h (by decide)
  have h7 : c ≠ '−' := by rintro rfl; exact absurd h (by decide)
  simp [bannedChar, h1, h2, h3, h4, h5, h6, h7]

theorem sanitizeL_banned (l : List Char) (c : Char) (hc : c ∈ sanitizeL l) :
    bannedChar c = false := by
  simp only [sanitizeL] at hc
  rw [discRewrite] at hc
  rcases mem_discRewriteAux _ _ _ _ _ hc with h1 | h1 | h1
  · have h2 := mem_stripP (mem_rstripP h1)
    rcases mem_collapseWsAux _ _ _ h2 with rfl | h4
    · decide
    · rcases List.mem_map.mp h4 with ⟨a, ha, hfa⟩
      by_cases hd : a = '–' || a = '—' || a = '−'
      · have hcc : c = '-' := by rw [← hfa, if_pos hd]
        rw [hcc]; decide
      · have hca : c = a := by rw [← hfa, if_neg hd]
        subst hca
        obtain ⟨ha3, h125⟩ := List.mem_filter.mp ha
        obtain ⟨ha2, h123⟩ := List.mem_filter.mp ha3
        obtain ⟨ha1, h126⟩ := List.mem_filter.mp ha2
        obtain ⟨_, h64⟩ := List.mem_filter.mp ha1
        simp only [bne_iff_ne, ne_eq] at h125 h123 h126 h64
        simp only [Bool.or_eq_true, decide_eq_true_eq, not_or] at hd
        simp only [bannedChar, Bool.or_eq_false_iff, decide_eq_false_iff_not]
        exact ⟨⟨⟨⟨⟨⟨h64, h126⟩, h123⟩, h125⟩, hd.1.1⟩, hd.1.2⟩, hd.2⟩
  · simp only [List.mem_cons, List.not_mem_nil, or_false] at h1
    rcases h1 with rfl | rfl | rfl | rfl | rfl | rfl | rfl <;> decide
  · exact digit_not_banned h1

theorem discRewrite_shape' :
    ∀ (l7 : List Char),
      (∀ c, l7.head? = some c → isSp c = false) →
      (∀ c, l7.getLast? = some c → (c = '-' || isSp c) = false) →
      discRewrite l7 = [] ∨
        (noLeadWs (discRewrite l7) = true ∧ noTrailSep (discRewrite l7) = true) := by
  intro l7 hhead hlast
  cases l7 with
  | nil => left; rfl
  | cons c rest =>
    right
    have hne7 : (c :: rest : List Char) ≠ [] := by simp
    constructor
    · rw [discRewrite]
      rcases discRewriteAux_head? ((c :: rest : List Char).length + 1) false false c rest
        with h1 | h1
      · exact noLeadWs_of h1 (hhead c rfl)
      · exact noLeadWs_of h1 (by decide)
    · rw [discRewrite]
      rcases discRewriteAux_getLast? ((c :: rest : List Char).length + 1) false false
        (c :: rest) hne7 with h1 | h1
      · rcases hl : (c :: rest : List Char).getLast? with _ | d
        · rw [List.getLast?_eq_getLast_of_ne_nil hne7] at hl
          exact absurd hl (by simp)
        · exact noTrailSep_of (by rw [h1, hl]) (hlast d hl)
      · exact noTrailSep_of h1 (by decide)

theorem discRewrite_shape (l6 : List Char) :
    discRewrite (rstripP (fun c => c = '-' || isSp c) (stripP isSp l6)) = [] ∨
    (noLeadWs (discRewrite (rstripP (fun c => c = '-' || isSp c) (stripP isSp l6))) = true ∧
     noTrailSep (discRewrite (rstripP (fun c => c = '-' || isSp c) (stripP isSp l6))) = true) := by
  apply discRewrite_shape'
  · intro c hc
    have hne : rstripP (fun c => c = '-' || isSp c) (stripP isSp l6) ≠ [] := by
      intro he
      rw [he] at hc
      exact absurd hc (by simp)
    rw [rstripP_head? hne] at hc
    exact stripP_head? hc
  · intro c hc
    simpa using rstripP_getLast? hc

/-! ### Claim theorems -/

/-- C1: the claim says `remove_band_name` removes a leading band-name
prefix, and in particular maps `"R.E.M. Automatic For The People"` with
band `"R.E.M."` to `"Automatic For The People"`.  The code disagrees: the
compiled pattern ends in `\b`, and after `"R.E.M."` (final character `.`,
not a word character) followed by a space no word boundary exists, so the
pattern does not match and the title is returned unchanged.  This theorem
evaluates the embedded code at the claimed input. -/
theorem c1_remove_band_name_rem_eval :
    remove_band_name "R.E.M. Automatic For The People" "R.E.M." =
      "R.E.M. Automatic For The People" ∧
    remove_band_name "R.E.M. Automatic For The People" "R.E.M." ≠
      "Automatic For The People" :=
  ⟨by decide, by decide⟩

/-- C2 counterexample: the claim says `move_year_in_front` removes the
first standalone 4-digit number from its original position, which on
`"1992 Live 1992"` would give `"1992 - Live 1992"`.  The code instead
removes every occurrence of the 4-digit substring (`str.replace` replaces
all occurrences) and returns `"1992 - Live"`. -/
theorem c2_counterexample :
    move_year_in_front "1992 Live 1992" ≠ "1992 - Live 1992" ∧
    move_year_in_front "1992 Live 1992" = "1992 - Live" :=
  ⟨by decide, by decide⟩

/-- C2 (amended): if the title has no standalone 4-digit number it is
returned unchanged; if the leftmost standalone 4-digit number is `y`, the
code removes every occurrence of the 4-character substring `y`, trims
separators and leftover empty parentheses, and returns `"y - rest"`
(or just `"y"` when the rest is empty); the two spec examples hold, and
on `"1992 Live 1992"` the second occurrence is removed as well. -/
theorem c2_move_year_in_front (t : String) :
    (findYear t.data = none → move_year_in_front t = t) ∧
    (∀ y1 y2 y3 y4 : Char, findYear t.data = some (y1, y2, y3, y4) →
      move_year_in_front t = (⟨[y1, y2, y3, y4]⟩ : String) ∨
      ∃ r : List Char, r ≠ [] ∧
        move_year_in_front t = (⟨[y1, y2, y3, y4] ++ ' ' :: '-' :: ' ' :: r⟩ : String)) ∧
    move_year_in_front "Automatic For The People 1992" = "1992 - Automatic For The People" ∧
    move_year_in_front "No Year Here" = "No Year Here" ∧
    move_year_in_front "1992 Live 1992" = "1992 - Live" := by
  refine ⟨?_, ?_, by decide, by decide, by decide⟩
  · intro h
    apply strExt
    show move_year_in_frontL t.data = t.data
    rw [move_year_in_frontL, h]
  · intro y1 y2 y3 y4 h
    have hbody : move_year_in_front t = (⟨move_year_in_frontL t.data⟩ : String) := rfl
    rw [hbody, move_year_in_frontL, h]
    by_cases he :
        (stripP isSp (removeEmptyParens (stripP (fun c => c = ' ' || c = '-')
          (removeAll4 y1 y2 y3 y4 t.data)))).isEmpty
    · left
      simp [he]
    · right
      refine ⟨stripP isSp (removeEmptyParens (stripP (fun c => c = ' ' || c = '-')
          (removeAll4 y1 y2 y3 y4 t.data))), ?_, ?_⟩
      · intro hnil
        rw [hnil] at he
        exact he rfl
      · simp [he]

theorem c2_witness :
    move_year_in_front "abc" = "abc" ∧
    (move_year_in_front "1999" = (⟨['1', '9', '9', '9']⟩ : String) ∨
      ∃ r : List Char, r ≠ [] ∧
        move_year_in_front "1999" = (⟨['1', '9', '9', '9'] ++ ' ' :: '-' :: ' ' :: r⟩ : String)) :=
  ⟨(c2_move_year_in_front "abc").1 (by decide),
   (c2_move_year_in_front "1999").2.1 '1' '9' '9' '9' (by decide)⟩

/-- C5: `sanitize` is idempotent on the disc-tagged output
`"Album (Disc 2)"`: the disc rewrite does not fire again because the
token is preceded by `(` and the digits are separated from the keyword. -/
theorem c5_sanitize_idempotent_disc :
    sanitize (sanitize "Album (Disc 2)") = sanitize "Album (Disc 2)" := by decide

/-- C4: `sanitize` eliminates `@`, `~`, both curly braces and the dash
variants (they are rewritten to the ASCII hyphen) from every input, and
the two spec examples hold: punctuation and trailing separators are
stripped, and a bare `CD2` token becomes `(Disc 2)`. -/
theorem c4_sanitize_behaviour :
    (∀ (s : String) (c : Char), c ∈ (sanitize s).data → bannedChar c = false) ∧
    sanitize "Some@Title~ \x7bLive\x7d -- " = "SomeTitle Live" ∧
    sanitize "Album CD2" = "Album (Disc 2)" := by
  refine ⟨?_, by decide, by decide⟩
  intro s c hc
  exact sanitizeL_banned s.data c hc

theorem c4_witness : bannedChar 'a' = false :=
  c4_sanitize_behaviour.1 "a@b" 'a' (by decide)

/-- C9: for every input, `sanitize` returns either the empty string or a
string that neither begins nor ends with whitespace and does not end with
a hyphen: the whitespace trim and the trailing-separator strip run before
the disc rewrite, and the disc rewrite can only put `(` at the front and
`)` or the untouched original character at the end. -/
theorem c9_sanitize_trimmed (s : String) :
    (sanitize s).data = [] ∨
    (noLeadWs (sanitize s).data = true ∧ noTrailSep (sanitize s).data = true) :=
  discRewrite_shape
    (collapseWs
      ((((((s.data.filter (fun c => c != '@')).filter (fun c => c != '~')).filter
          (fun c => c != Char.ofNat 123)).filter (fun c => c != Char.ofNat 125)).map
        (fun c => if c = '–' || c = '—' || c = '−' then '-' else c))))

/-- C6: a path whose lower-cased full string contains `"remaster"` is an
edge case whenever `remaster` is not among the enabled edge options; and
with `remaster` enabled it is not an edge case provided no other trigger
(a `delux` substring without the `delux` option, a year span without the
`multiyears` option, or one of the fixed `EDGE_CASES` titles) applies. -/
theorem c6_remaster_edge (opts : List String) (p : String) :
    (hasSubL (lowerL p.data) "remaster".data = true → opts.contains "remaster" = false →
      is_edge_case opts p = true) ∧
    (opts.contains "remaster" = true →
      (hasSubL (lowerL p.data) "delux".data && !(opts.contains "delux")) = false →
      (multiYear (lowerL p.data) && !(opts.contains "multiyears")) = false →
      EDGE_CASES.any (fun q => hasSubL (lowerL p.data) (lowerL q.data)) = false →
      is_edge_case opts p = false) := by
  constructor
  · intro h1 h2
    simp only [is_edge_case, is_edge_caseL]
    rw [h1, h2]
    rfl
  · intro h1 h2 h3 h4
    simp only [is_edge_case, is_edge_caseL]
    rw [h1, h2, h3, h4]
    simp

theorem c6_witness :
    is_edge_case [] "/m/Album Remastered" = true ∧
    is_edge_case ["remaster"] "/m/Album Remastered" = false :=
  ⟨(c6_remaster_edge [] "/m/Album Remastered").1 (by decide) (by decide),
   (c6_remaster_edge ["remaster"] "/m/Album Remastered").2 (by decide) (by decide)
     (by decide) (by decide)⟩

/-- C8: a flatten candidate whose name has no `" - "` separator produces
only the failure log line and no filesystem operation; with a separator,
the name splits at its first occurrence (the before-part is the shortest
possible), and a run without dry-run creates the artist folder and moves
the original folder to `artistFolder/albumName` (both halves stripped of
surrounding whitespace, as in the code). -/
theorem c8_deflat_dir (dryRun : Bool) (parentPath name : String) :
    (hasSub name " - " = false →
      (deflat_dir dryRun parentPath name).effects = [] ∧
      (deflat_dir dryRun parentPath name).logMsg =
        "[DEFLAT][FAIL] Not found artist album " ++ parentPath ++ "/" ++ name ++ "/") ∧
    (∀ a b, splitOnFirstL name.data " - ".data = some (a, b) →
      (name.data = a ++ " - ".data ++ b ∧
        ∀ a' b', name.data = a' ++ " - ".data ++ b' → a.length ≤ a'.length) ∧
      (deflat_dir false parentPath name).effects =
        [FsOp.mkdirOp (parentPath ++ "/" ++ (⟨stripP isSp a⟩ : String)),
         FsOp.renameOp (parentPath ++ "/" ++ name)
           (parentPath ++ "/" ++ (⟨stripP isSp a⟩ : String) ++ "/" ++
             (⟨stripP isSp b⟩ : String))]) := by
  constructor
  · intro h
    have hnone : splitOnFirstL name.data " - ".data = none := by
      cases hx : splitOnFirstL name.data " - ".data with
      | none => rfl
      | some pr =>
        rw [hasSub, hasSubL, hx] at h
        exact absurd h (by simp)
    rw [deflat_dir, hnone]
    exact ⟨rfl, rfl⟩
  · intro a b h
    refine ⟨⟨splitOnFirstL_eq h, splitOnFirstL_min h⟩, ?_⟩
    rw [deflat_dir, h]
    rfl

theorem c8_witness :
    ((deflat_dir true "/music" "NoSeparatorHere").effects = [] ∧
      (deflat_dir true "/music" "NoSeparatorHere").logMsg =
        "[DEFLAT][FAIL] Not found artist album " ++ "/music" ++ "/" ++ "NoSeparatorHere" ++ "/") ∧
    (deflat_dir false "/music" "Pink Floyd - The Wall").effects =
      [FsOp.mkdirOp ("/music" ++ "/" ++ (⟨stripP isSp "Pink Floyd".data⟩ : String)),
       FsOp.renameOp ("/music" ++ "/" ++ "Pink Floyd - The Wall")
         ("/music" ++ "/" ++ (⟨stripP isSp "Pink Floyd".data⟩ : String) ++ "/" ++
           (⟨stripP isSp "The Wall".data⟩ : String))] :=
  ⟨(c8_deflat_dir true "/music" "NoSeparatorHere").1 (by decide),
   ((c8_deflat_dir false "/music" "Pink Floyd - The Wall").2 "Pink Floyd".data "The Wall".data
     (by decide)).2⟩

/-- C10: the band name is matched literally (`re.escape` neutralises
regex metacharacters): whenever the anchored case-insensitive literal
match succeeds, the consumed title characters agree with the band name up
to ASCII case, so a `.` in the band name only ever matches a literal `.`;
in particular `"R.E.M."` does not match the title `"RoEoMo Album"`, which
is returned unchanged.  (The embedded function is total, mirroring that
the escaped pattern can never raise a regex error.) -/
theorem c10_band_name_literal :
    (∀ (title band rest : List Char), matchCI band title = some rest →
      (title.take band.length).map lc = band.map lc) ∧
    remove_band_name "RoEoMo Album" "R.E.M." = "RoEoMo Album" := by
  refine ⟨?_, by decide⟩
  intro title band rest h
  exact (matchCI_take band title rest h).1

theorem c10_witness :
    ("Queen Hits".data.take "Queen".data.length).map lc = "Queen".data.map lc :=
  c10_band_name_literal.1 "Queen Hits".data "Queen".data " Hits".data (by decide)

/-- C3: when the title obtained after the year-move stage already starts
with four digits and `" - "` (and the folder is not an edge case, so that
the year-move stage actually runs), the pipeline does not invoke the
Discogs lookup and the final title is exactly that year-fronted title. -/
theorem c3_year_front_no_lookup (opts : List String) (dryRun : Bool)
    (parentPath name band relPath : String) (oracle : Option String)
    (hedge : is_edge_case opts (parentPath ++ "/" ++ name) = false)
    (hyear : startsWithYearDash
      (move_year_in_front (sanitize (remove_band_name name band))) = true) :
    (rename_album_folder opts dryRun parentPath name band relPath oracle).lookupInvoked
      = false ∧
    (rename_album_folder opts dryRun parentPath name band relPath oracle).finalTitle =
      move_year_in_front (sanitize (remove_band_name name band)) ∧
    startsWithYearDash
      (rename_album_folder opts dryRun parentPath name band relPath oracle).finalTitle
      = true := by
  have hmain :
      (rename_album_folder opts dryRun parentPath name band relPath oracle).lookupInvoked
        = false ∧
      (rename_album_folder opts dryRun parentPath name band relPath oracle).finalTitle =
        move_year_in_front (sanitize (remove_band_name name band)) := by
    simp only [rename_album_folder, hedge, Bool.false_eq_true, if_false, hyear, if_true]
    split
    · exact ⟨rfl, rfl⟩
    · split
      · exact ⟨rfl, rfl⟩
      · exact ⟨rfl, rfl⟩
  refine ⟨hmain.1, hmain.2, ?_⟩
  rw [hmain.2]
  exact hyear

theorem c3_witness :
    (rename_album_folder [] false "/music/R.E.M." "1992 - Automatic For The People"
      "R.E.M." "rel" (some "1971")).lookupInvoked = false ∧
    (rename_album_folder [] false "/music/R.E.M." "1992 - Automatic For The People"
      "R.E.M." "rel" (some "1971")).finalTitle =
      move_year_in_front (sanitize
        (remove_band_name "1992 - Automatic For The People" "R.E.M.")) ∧
    startsWithYearDash
      (rename_album_folder [] false "/music/R.E.M." "1992 - Automatic For The People"
        "R.E.M." "rel" (some "1971")).finalTitle = true :=
  c3_year_front_no_lookup [] false "/music/R.E.M." "1992 - Automatic For The People"
    "R.E.M." "rel" (some "1971") (by decide) (by decide)

/-- C7 counterexample: the claim says the dry-run variant logs the same
rename message with a dry-run prefix.  For `deflat_dir` this fails: the
executed message ends with a trailing `/` after the destination while the
dry-run message does not, so the dry-run message is not the prefixed
executed message under either prefixing convention; the filesystem is
nevertheless untouched. -/
theorem c7_counterexample :
    (deflat_dir true "/music" "Pink Floyd - The Wall").logMsg ≠
      "[DRY-RUN]" ++ (deflat_dir false "/music" "Pink Floyd - The Wall").logMsg ∧
    (deflat_dir true "/music" "Pink Floyd - The Wall").logMsg ≠
      "[DRY-RUN] " ++ (deflat_dir false "/music" "Pink Floyd - The Wall").logMsg ∧
    (deflat_dir true "/music" "Pink Floyd - The Wall").effects = [] :=
  ⟨by decide, by decide, by decide⟩

/-- C7 (amended): with dry-run enabled no filesystem mutation happens in
either routine.  `rename_album_folder` logs exactly the executed-rename
message prefixed with `"[DRY-RUN] "` (and the same skip lines);
`deflat_dir` logs the executed message prefixed with `"[DRY-RUN]"` except
that the executed message carries a trailing `/` that the dry-run message
lacks. -/
theorem c7_dry_run_frame (opts : List String) (parentPath name band relPath : String)
    (oracle : Option String) :
    ((rename_album_folder opts true parentPath name band relPath oracle).effects = [] ∧
      (rename_album_folder opts true parentPath name band relPath oracle).renamed =
        (rename_album_folder opts false parentPath name band relPath oracle).renamed.map
          (fun m => "[DRY-RUN] " ++ m) ∧
      (rename_album_folder opts true parentPath name band relPath oracle).skipped =
        (rename_album_folder opts false parentPath name band relPath oracle).skipped) ∧
    ((deflat_dir true parentPath name).effects = [] ∧
      (hasSub name " - " = true →
        (deflat_dir true parentPath name).logMsg ++ "/" =
          "[DRY-RUN]" ++ (deflat_dir false parentPath name).logMsg)) := by
  constructor
  · simp only [rename_album_folder]
    split_ifs <;> simp_all
  · cases hx : splitOnFirstL name.data " - ".data with
    | none =>
      constructor
      · rw [deflat_dir, hx]
      · intro hs
        rw [hasSub, hasSubL, hx] at hs
        exact absurd hs (by simp)
    | some pr =>
      cases pr with
      | mk a b =>
        constructor
        · simp only [deflat_dir, hx]
          rfl
        · intro _
          apply strExt
          have hlit : "[DRY-RUN][DEFLAT] ".data = "[DRY-RUN]".data ++ "[DEFLAT] ".data := by
            decide
          simp [deflat_dir, hx, strAppend_data, hlit, List.append_assoc]

theorem c7_witness :
    (deflat_dir true "/music" "Pink Floyd - The Wall").logMsg ++ "/" =
      "[DRY-RUN]" ++ (deflat_dir false "/music" "Pink Floyd - The Wall").logMsg :=
  (c7_dry_run_frame [] "/music" "Pink Floyd - The Wall" "" "" none).2.2 (by decide)

end ReFoldr
